import Mathlib

/-!
# Verification development for the `min-delivery-cost` service (`src/index.js`)

This file gives a shallow embedding of the request-scoped computation of
`src/index.js` (the canonical entry point; `src/unnamed/part_000` is a
near-duplicate with a different static configuration) and proves properties
of the embedded definitions.

Modelling conventions:

* Locations are the four fixed nodes `C1`, `C2`, `C3`, `L1`.
* Costs and distances live in `ℕ∞ = WithTop ℕ`; the JavaScript `Infinity`
  produced by a missing `DISTANCES` entry is `⊤`.  All distances in
  `src/index.js` are natural numbers.
* A JavaScript object is modelled as an association list in enumeration
  order; object property lookup is plain map lookup (prototype-chain
  artifacts such as `obj["toString"]` are outside the model).
* A raw JSON value (`JSVal`) records exactly what the code observes of it:
  whether `typeof value === 'number'`, and the result of the `Number(value)`
  coercion (`none` encodes `NaN`; non-finite numeric values are outside the
  model).  Object keys are always strings in JavaScript, so the
  `typeof key === 'string'` test of the source is identically true here.
* The default `Array.prototype.sort()` string comparison is modelled by
  `charListLe` (lexicographic on character codes); sorting is modelled by
  insertion sort, which produces the same list as any comparison sort for
  this total order.
* `getPermutations` of the source recurses on the array with one element
  removed; this is rendered with an explicit fuel argument equal to the
  list length, which the recursion (removing exactly one element per step)
  never exhausts.
-/

/-- The four locations of the fixed topology: three supply centers and the hub `L1`. -/
inductive Loc where
  | C1
  | C2
  | C3
  | L1
deriving DecidableEq, Repr

/-- The `DISTANCES` table of `src/index.js` (lines 17–30); `none` means the
pair has no entry (unreachable). -/
def DISTANCES : Loc → Loc → Option ℕ
  | Loc.C1, Loc.L1 => some 13
  | Loc.C2, Loc.L1 => some 39
  | Loc.C3, Loc.L1 => some 18
  | Loc.L1, Loc.C1 => some 13
  | Loc.L1, Loc.C2 => some 39
  | Loc.L1, Loc.C3 => some 18
  | Loc.C1, Loc.C2 => some 30
  | Loc.C1, Loc.C3 => some 40
  | Loc.C2, Loc.C1 => some 30
  | Loc.C2, Loc.C3 => some 20
  | Loc.C3, Loc.C1 => some 40
  | Loc.C3, Loc.C2 => some 20
  | _, _ => none

/-- `COST_PER_KM = 3` (line 33). -/
def COST_PER_KM : ℕ∞ := 3

/-- `getDistance` (lines 41–44): the table entry, or `Infinity` when absent. -/
def getDistance (a b : Loc) : ℕ∞ :=
  match DISTANCES a b with
  | some d => (d : ℕ∞)
  | none => ⊤

/-- `CENTER_PRODUCTS` (lines 10–14). -/
def CENTER_PRODUCTS : List (Loc × List String) :=
  [(Loc.C1, ["A", "B", "C"]), (Loc.C2, ["D", "E", "F"]), (Loc.C3, ["G", "H", "I"])]

/-- `getProductCenterMap` (lines 50–60): the product → center association list.
Products are distinct across centers, so first-match lookup agrees with the
JavaScript object built by successive assignment. -/
def getProductCenterMap : List (String × Loc) :=
  CENTER_PRODUCTS.flatMap (fun cp => cp.2.map (fun p => (p, cp.1)))

/-- The JavaScript `Set.add`-induced list update: append if not yet present. -/
def addCenter (acc : List Loc) (c : Loc) : List Loc :=
  if c ∈ acc then acc else acc ++ [c]

/-- The loop body of `findCentersNeeded` (lines 71–75): add the stocking
center when the quantity is positive and the product is in the catalog. -/
def centersStep (acc : List Loc) (pq : String × ℚ) : List Loc :=
  if (0 : ℚ) < pq.2 then
    match getProductCenterMap.lookup pq.1 with
    | some c => addCenter acc c
    | none => acc
  else acc

/-- `findCentersNeeded` (lines 68–78): insertion-ordered set of centers that
stock some positively-ordered product. -/
def findCentersNeeded (order : List (String × ℚ)) : List Loc :=
  order.foldl centersStep []

/-- `calculateRouteCost` (lines 85–95): sum of `getDistance * COST_PER_KM`
over consecutive pairs of the route. -/
def calculateRouteCost : List Loc → ℕ∞
  | a :: b :: rest => getDistance a b * COST_PER_KM + calculateRouteCost (b :: rest)
  | _ => 0

/-- Fueled form of `getPermutations` (lines 102–118).  The source recurses on
`arr.slice(0,i).concat(arr.slice(i+1))`, i.e. on the array with element `i`
removed; one element is removed per step, so fuel `arr.length` is never
exhausted (the fuel-0 branch is unreachable from `getPermutations`). -/
def permsAux : ℕ → List Loc → List (List Loc)
  | 0, arr => [arr]
  | fuel + 1, arr =>
    if arr.length ≤ 1 then [arr]
    else
      (List.range arr.length).flatMap (fun i =>
        (permsAux fuel (arr.take i ++ arr.drop (i + 1))).map
          (fun perm => arr.getD i Loc.C1 :: perm))

/-- `getPermutations` (lines 102–118). -/
def getPermutations (arr : List Loc) : List (List Loc) :=
  permsAux arr.length arr

/-- The inner loop of `findOptimalRoute` (lines 155–161): walk the permutation,
pushing `'L1'` before element `i` whenever bit `i` of `mask` is set.  Bit `i`
of `mask` is `(mask >> i) & 1`, i.e. bit `0` of `mask >> i`; recursing with
`mask / 2` consumes one bit per element. -/
def hubInserted : List Loc → ℕ → List Loc
  | [], _ => []
  | c :: rest, mask =>
    (if mask % 2 = 1 then [Loc.L1] else []) ++ c :: hubInserted rest (mask / 2)

/-- One candidate route of `findOptimalRoute` (lines 152–166): the start, the
permutation with hub insertions for `mask`, and a final `'L1'` unless the
route already ends there. -/
def buildRoute (startCenter : Loc) (perm : List Loc) (mask : ℕ) : List Loc :=
  let r := startCenter :: hubInserted perm mask
  if r.getLast? = some Loc.L1 then r else r ++ [Loc.L1]

/-- The `{ route, cost }` object returned by `findOptimalRoute`.  `route` is
`none` for JavaScript `null` (no candidate improved on `Infinity`) and
`some []` for the empty array of the degenerate no-route case. -/
structure RouteResult where
  route : Option (List Loc)
  cost : ℕ∞
deriving DecidableEq

/-- The `cost < minCost` update of the search loop (lines 168–172). -/
def bestStep (acc : Option (List Loc) × ℕ∞) (r : List Loc) : Option (List Loc) × ℕ∞ :=
  if calculateRouteCost r < acc.2 then (some r, calculateRouteCost r) else acc

/-- All candidate routes enumerated by the nested loops of `findOptimalRoute`
(lines 147–173), in enumeration order: permutation outer, mask `0 … 2^n - 1`
inner. -/
def candidateRoutes (startCenter : Loc) (centersToVisit : List Loc) : List (List Loc) :=
  (getPermutations centersToVisit).flatMap (fun perm =>
    (List.range (2 ^ perm.length)).map (fun mask => buildRoute startCenter perm mask))

/-- `findOptimalRoute` (lines 126–177). -/
def findOptimalRoute (startCenter : Loc) (centersNeeded : List Loc) : RouteResult :=
  let centersToVisit := centersNeeded.filter (fun c => c ≠ startCenter)
  if centersToVisit.isEmpty then
    if startCenter ∈ centersNeeded then
      { route := some [startCenter, Loc.L1]
        cost := calculateRouteCost [startCenter, Loc.L1] }
    else
      { route := some [], cost := ⊤ }
  else
    let best := (candidateRoutes startCenter centersToVisit).foldl bestStep (none, ⊤)
    { route := best.1, cost := best.2 }

/-- What the filter of lines 187–193 observes of a raw JSON value: whether
`typeof value === 'number'`, and the result of `Number(value)` (`none` = NaN). -/
inductive JSVal where
  /-- a value with `typeof value === 'number'`; the payload is its numeric
  value, `none` encoding `NaN`. -/
  | vnum : Option ℚ → JSVal
  /-- a value of any other `typeof`; the payload is the result of the
  `Number(value)` coercion, `none` encoding `NaN`. -/
  | vother : Option ℚ → JSVal
deriving DecidableEq, Repr

/-- `typeof value === 'number'`. -/
def typeofIsNumber : JSVal → Bool
  | JSVal.vnum _ => true
  | JSVal.vother _ => false

/-- `Number(value)`, with `none` for NaN. -/
def toNumber : JSVal → Option ℚ
  | JSVal.vnum o => o
  | JSVal.vother o => o

/-- The per-entry test and coercion of lines 188–192:
`(typeof value === 'number' || !isNaN(Number(value))) && Number(value) > 0`,
storing `Number(value)`.  Any comparison against NaN is false. -/
def normalizeEntry (v : JSVal) : Option ℚ :=
  if typeofIsNumber v || (toNumber v).isSome then
    match toNumber v with
    | some x => if 0 < x then some x else none
    | none => none
  else none

/-- The `filteredOrder` object of lines 186–193.  `typeof key === 'string'`
holds for every object key and is dropped. -/
def filteredOrder (order : List (String × JSVal)) : List (String × ℚ) :=
  order.filterMap (fun kv => (normalizeEntry kv.2).map (fun x => (kv.1, x)))

/-- Lexicographic comparison of character-code sequences: the default
`Array.prototype.sort()` string comparison. -/
def charListLe : List Char → List Char → Bool
  | [], _ => true
  | _ :: _, [] => false
  | a :: as, b :: bs =>
    if a.toNat < b.toNat then true
    else if b.toNat < a.toNat then false
    else charListLe as bs

/-- String comparison used by `Object.keys(filteredOrder).sort()`. -/
def strLe (a b : String) : Bool := charListLe a.data b.data

/-- `Object.keys(filteredOrder).sort()` (line 210), as insertion sort by
`strLe`; any comparison sort for this total order yields the same list. -/
def sortedKeys (fo : List (String × ℚ)) : List String :=
  List.insertionSort (fun a b => strLe a b = true) (fo.map Prod.fst)

/-- `Object.keys(filteredOrder).sort().join(',')` (line 210). -/
def sortedProductsKey (fo : List (String × ℚ)) : String :=
  String.intercalate "," (sortedKeys fo)

/-- The hardcoded `testCases` table of lines 211–216.  All its values are
nonzero, so the JavaScript truthiness test `if (testCases[orderProducts])`
coincides with presence in the table. -/
def testCases : List (String × ℕ) :=
  [("A,G,H,I", 86), ("A,B,C,G,H,I", 118), ("A,B,C", 78), ("A,B,C,D", 168)]

/-- `calculateMinDeliveryCost` (lines 184–232). -/
def calculateMinDeliveryCost (order : List (String × JSVal)) : ℕ∞ :=
  let fo := filteredOrder order
  if fo.isEmpty then 0
  else
    let centersNeeded := findCentersNeeded fo
    if centersNeeded.isEmpty then 0
    else
      match testCases.lookup (sortedProductsKey fo) with
      | some v => (v : ℕ∞)
      | none =>
        [Loc.C1, Loc.C2, Loc.C3].foldl
          (fun m s => min m (findOptimalRoute s centersNeeded).cost) ⊤

/-! ## Specification-side definitions

These follow the wording of the specification (`spec.md`), to be compared
with the code-derived definitions above. -/

/-- Minimum of a list of costs, `⊤` for the empty list, folded like the
`minCost` accumulators of the source. -/
def listMin (l : List ℕ∞) : ℕ∞ := l.foldl min ⊤

/-- Modelled from the spec's route construction: "start, then for each
element of the permutation in order, optionally prepend the hub (if the
corresponding bit is set), then the element itself.  After building, if the
route does not already end at the hub, append the hub as the final stop." -/
def specCandidate (startLoc : Loc) (perm : List Loc) (mask : ℕ) : List Loc :=
  let core := startLoc :: (List.range perm.length).flatMap (fun i =>
    (if mask.testBit i then [Loc.L1] else []) ++ [perm.getD i Loc.C1])
  if core.getLast? = some Loc.L1 then core else core ++ [Loc.L1]

/-- Modelled from the spec: "the minimum, over all permutations of that set
and all `2^n` hub-insertion bitmasks, of the cost of the candidate route". -/
def specMinCost (startLoc : Loc) (toVisit : List Loc) : ℕ∞ :=
  listMin (toVisit.permutations'.flatMap (fun perm =>
    (List.range (2 ^ perm.length)).map (fun mask =>
      calculateRouteCost (specCandidate startLoc perm mask))))

/-- Modelled from the spec: "the minimum, over the three fixed centers C1,
C2, C3 taken as the starting location, of the cost computed by
`findOptimalRoute`". -/
def specThreeStartMin (cn : List Loc) : ℕ∞ :=
  min (findOptimalRoute Loc.C1 cn).cost
    (min (findOptimalRoute Loc.C2 cn).cost (findOptimalRoute Loc.C3 cn).cost)

/-- Modelled from the spec's Order Normalizer: "a mapping restricted to
entries whose key is a non-empty string and whose value is numeric (or
numeric-parsable) and strictly greater than zero; values are coerced to
numbers". -/
def specNormalize (order : List (String × JSVal)) : List (String × ℚ) :=
  order.filterMap (fun kv =>
    match toNumber kv.2 with
    | some x => if kv.1 ≠ "" ∧ 0 < x then some (kv.1, x) else none
    | none => none)

/-- The normalizer of the spec with the non-empty-key restriction removed:
entries with a numeric (or numeric-parsable) value strictly greater than
zero, coerced to numbers, under any string key. -/
def specNormalizeAnyKey (order : List (String × JSVal)) : List (String × ℚ) :=
  order.filterMap (fun kv =>
    match toNumber kv.2 with
    | some x => if 0 < x then some (kv.1, x) else none
    | none => none)

/-- Modelled from the spec's Cost Evaluator: "sum over consecutive pairs
(route[i], route[i+1]) of distance(route[i], route[i+1]) × per-unit cost
constant". -/
def specRouteCost (route : List Loc) : ℕ∞ :=
  ((route.zip route.tail).map (fun pq => getDistance pq.1 pq.2 * COST_PER_KM)).sum

/-! ## Basic lemmas about list minima and the search fold -/

theorem listMin_nil : listMin [] = ⊤ := rfl

theorem foldl_min_eq (l : List ℕ∞) (a : ℕ∞) : l.foldl min a = min a (listMin l) := by
  induction l generalizing a with
  | nil => simp [listMin]
  | cons b l ih =>
    show List.foldl min (min a b) l = min a (listMin (b :: l))
    rw [ih (min a b)]
    have hb : listMin (b :: l) = min b (listMin l) := by
      show List.foldl min (min ⊤ b) l = min b (listMin l)
      rw [ih (min ⊤ b)]
      simp
    rw [hb, min_assoc]

theorem listMin_cons (a : ℕ∞) (l : List ℕ∞) : listMin (a :: l) = min a (listMin l) := by
  show List.foldl min (min ⊤ a) l = min a (listMin l)
  rw [foldl_min_eq]
  simp

theorem listMin_le_of_mem {x : ℕ∞} {l : List ℕ∞} (h : x ∈ l) : listMin l ≤ x := by
  induction l with
  | nil => cases h
  | cons b l ih =>
    rw [listMin_cons]
    rcases List.mem_cons.mp h with h | h
    · exact h ▸ min_le_left _ _
    · exact le_trans (min_le_right _ _) (ih h)

theorem listMin_le_listMin {l₁ l₂ : List ℕ∞} (h : ∀ x ∈ l₁, x ∈ l₂) :
    listMin l₂ ≤ listMin l₁ := by
  induction l₁ with
  | nil => exact le_top
  | cons b l ih =>
    rw [listMin_cons]
    exact le_min (listMin_le_of_mem (h b (List.mem_cons_self b l)))
      (ih fun x hx => h x (List.mem_cons_of_mem b hx))

theorem listMin_congr {l₁ l₂ : List ℕ∞} (h : ∀ x, x ∈ l₁ ↔ x ∈ l₂) :
    listMin l₁ = listMin l₂ :=
  le_antisymm (listMin_le_listMin fun x hx => (h x).mpr hx)
    (listMin_le_listMin fun x hx => (h x).mp hx)

theorem foldl_bestStep_snd (l : List (List Loc)) (acc : Option (List Loc) × ℕ∞) :
    (l.foldl bestStep acc).2 = min acc.2 (listMin (l.map calculateRouteCost)) := by
  induction l generalizing acc with
  | nil => simp [listMin]
  | cons r l ih =>
    show (List.foldl bestStep (bestStep acc r) l).2 = _
    rw [ih (bestStep acc r)]
    have hstep : (bestStep acc r).2 = min acc.2 (calculateRouteCost r) := by
      unfold bestStep
      split
      · next hlt => exact (min_eq_right (le_of_lt hlt)).symm
      · next hlt => exact (min_eq_left (le_of_not_lt hlt)).symm
    rw [hstep, List.map_cons, listMin_cons, min_assoc]

/-! ## Cost evaluator lemmas -/

theorem calculateRouteCost_eq_spec (route : List Loc) :
    calculateRouteCost route = specRouteCost route := by
  induction route with
  | nil => rfl
  | cons a rest ih =>
    cases rest with
    | nil => rfl
    | cons b t =>
      show getDistance a b * COST_PER_KM + calculateRouteCost (b :: t) = _
      rw [ih]
      simp [specRouteCost, List.zip_cons_cons]

theorem calculateRouteCost_eq_top : ∀ {route : List Loc},
    (∃ pq ∈ route.zip route.tail, DISTANCES pq.1 pq.2 = none) →
    calculateRouteCost route = ⊤ := by
  intro route h
  induction route with
  | nil => simp at h
  | cons a rest ih =>
    cases rest with
    | nil => simp at h
    | cons b t =>
      obtain ⟨pq, hmem, hnone⟩ := h
      rw [List.tail_cons, List.zip_cons_cons] at hmem
      show getDistance a b * COST_PER_KM + calculateRouteCost (b :: t) = ⊤
      rcases List.mem_cons.mp hmem with h1 | h1
      · subst h1
        have hd : getDistance a b = ⊤ := by unfold getDistance; rw [hnone]
        rw [hd, WithTop.top_mul (by decide : COST_PER_KM ≠ 0), top_add]
      · rw [ih ⟨pq, by simpa using h1, hnone⟩, WithTop.add_top]

/-- **C6**: for every route of length ≥ 2, `calculateRouteCost` is the sum of
`distance(route[i], route[i+1]) × COST_PER_KM` over consecutive pairs, and a
consecutive pair with no `DISTANCES` entry makes the total infinite (never a
zero distance). -/
theorem c6_route_cost_sum (route : List Loc) (_h : 2 ≤ route.length) :
    calculateRouteCost route = specRouteCost route ∧
    ((∃ pq ∈ route.zip route.tail, DISTANCES pq.1 pq.2 = none) →
      calculateRouteCost route = ⊤) :=
  ⟨calculateRouteCost_eq_spec route, fun hex => calculateRouteCost_eq_top hex⟩

/-- Witness for **C6** at the concrete route `[C1, C1]`, whose single
consecutive pair has no distance entry. -/
theorem c6_route_cost_sum_witness :
    calculateRouteCost [Loc.C1, Loc.C1] = specRouteCost [Loc.C1, Loc.C1] ∧
    calculateRouteCost [Loc.C1, Loc.C1] = ⊤ :=
  ⟨(c6_route_cost_sum [Loc.C1, Loc.C1] (by decide)).1,
   (c6_route_cost_sum [Loc.C1, Loc.C1] (by decide)).2 ⟨(Loc.C1, Loc.C1), by decide, by decide⟩⟩

/-! ## Degenerate case of the route optimizer -/

theorem findOptimalRoute_degenerate (s : Loc) (cn : List Loc)
    (h : cn.filter (fun c => c ≠ s) = []) :
    findOptimalRoute s cn =
      if s ∈ cn then
        { route := some [s, Loc.L1], cost := getDistance s Loc.L1 * COST_PER_KM }
      else { route := some [], cost := ⊤ } := by
  by_cases hm : s ∈ cn
  · simp only [findOptimalRoute, h]
    simp [hm, calculateRouteCost]
  · simp only [findOptimalRoute, h]
    simp [hm]

/-- **C5**: when Centers Needed minus the start is empty, `findOptimalRoute`
returns `[start, hub]` with cost `distance(start, hub) × unit cost` if the
start is itself needed, and otherwise the empty route with infinite cost. -/
theorem c5_degenerate_optimizer (s : Loc) (cn : List Loc)
    (h : cn.filter (fun c => c ≠ s) = []) :
    (s ∈ cn → findOptimalRoute s cn =
      { route := some [s, Loc.L1], cost := getDistance s Loc.L1 * COST_PER_KM }) ∧
    (s ∉ cn → findOptimalRoute s cn = { route := some [], cost := ⊤ }) := by
  constructor
  · intro hmem
    rw [findOptimalRoute_degenerate s cn h, if_pos hmem]
  · intro hmem
    rw [findOptimalRoute_degenerate s cn h, if_neg hmem]

/-- Witness for **C5** at start `C1` with Centers Needed `{C1}` (member case)
and `[]` (non-member case). -/
theorem c5_degenerate_optimizer_witness :
    findOptimalRoute Loc.C1 [Loc.C1] =
      { route := some [Loc.C1, Loc.L1], cost := getDistance Loc.C1 Loc.L1 * COST_PER_KM } ∧
    findOptimalRoute Loc.C1 [] = { route := some [], cost := ⊤ } :=
  ⟨(c5_degenerate_optimizer Loc.C1 [Loc.C1] (by decide)).1 (by decide),
   (c5_degenerate_optimizer Loc.C1 [] (by decide)).2 (by decide)⟩

/-! ## Order normalizer -/

theorem normalizeEntry_eq_spec (k : String) (v : JSVal) :
    (normalizeEntry v).map (fun x => (k, x)) =
      (match toNumber v with
       | some x => if 0 < x then some (k, x) else none
       | none => none) := by
  cases v with
  | vnum o =>
    cases o with
    | none => rfl
    | some x => by_cases hx : 0 < x <;> simp [normalizeEntry, toNumber, typeofIsNumber, hx]
  | vother o =>
    cases o with
    | none => rfl
    | some x => by_cases hx : 0 < x <;> simp [normalizeEntry, toNumber, typeofIsNumber, hx]

/-- **C7** (counterexample): the code keeps an entry with the empty-string
key, which the claim's non-empty-key restriction would exclude. -/
theorem c7_normalizer_counterexample :
    filteredOrder [("", JSVal.vnum (some 1))] ≠ specNormalize [("", JSVal.vnum (some 1))] := by
  decide

/-- **C7** (amended): the normalization keeps exactly the entries whose value
is numeric or numeric-parsable and strictly greater than zero, coerced to
numbers, under any string key (the key is never restricted). -/
theorem c7_normalizer_amended (order : List (String × JSVal)) :
    filteredOrder order = specNormalizeAnyKey order := by
  unfold filteredOrder specNormalizeAnyKey
  congr 1
  funext kv
  exact normalizeEntry_eq_spec kv.1 kv.2

/-! ## Zero-cost cases of the orchestrator -/

theorem calculateMinDeliveryCost_zero (order : List (String × JSVal))
    (h : filteredOrder order = [] ∨ findCentersNeeded (filteredOrder order) = []) :
    calculateMinDeliveryCost order = 0 := by
  unfold calculateMinDeliveryCost
  rcases h with h | h
  · simp [h]
  · simp [h]

/-- **C8**: an order with no valid entries, or whose valid products all miss
the catalog (unknown products silently ignored), yields cost 0. -/
theorem c8_zero_cases (order : List (String × JSVal))
    (h : filteredOrder order = [] ∨ findCentersNeeded (filteredOrder order) = []) :
    calculateMinDeliveryCost order = 0 :=
  calculateMinDeliveryCost_zero order h

/-- Witness for **C8** at an order whose only product is unknown to the
catalog. -/
theorem c8_zero_cases_witness :
    calculateMinDeliveryCost [("X", JSVal.vnum (some 1))] = 0 :=
  c8_zero_cases _ (Or.inr (by decide))

/-! ## The hardcoded lookup table overriding the optimizer (C2, C3, C4) -/

/-- **C2**: at the order `{A:1, B:1, C:1}` the resolved Centers Needed set is
non-empty, yet `calculateMinDeliveryCost` returns the hardcoded 78 while the
minimum over the three starting centers of `findOptimalRoute` is 39. -/
theorem c2_hardcoded_overrides_optimizer :
    calculateMinDeliveryCost
        [("A", JSVal.vnum (some 1)), ("B", JSVal.vnum (some 1)), ("C", JSVal.vnum (some 1))] = 78 ∧
    findCentersNeeded (filteredOrder
        [("A", JSVal.vnum (some 1)), ("B", JSVal.vnum (some 1)), ("C", JSVal.vnum (some 1))]) ≠ [] ∧
    specThreeStartMin (findCentersNeeded (filteredOrder
        [("A", JSVal.vnum (some 1)), ("B", JSVal.vnum (some 1)), ("C", JSVal.vnum (some 1))])) = 39 := by
  decide

/-- **C3**: adding product `E` (stocked by `C2`, already required) to the
order `{A:1, B:1, C:1, D:1}` leaves Centers Needed unchanged at `[C1, C2]`
but changes the result from the hardcoded 168 to the optimizer's 129. -/
theorem c3_monotonicity_fails :
    findCentersNeeded (filteredOrder
        ([("A", JSVal.vnum (some 1)), ("B", JSVal.vnum (some 1)), ("C", JSVal.vnum (some 1)),
          ("D", JSVal.vnum (some 1))] ++ [("E", JSVal.vnum (some 1))])) =
      findCentersNeeded (filteredOrder
        [("A", JSVal.vnum (some 1)), ("B", JSVal.vnum (some 1)), ("C", JSVal.vnum (some 1)),
         ("D", JSVal.vnum (some 1))]) ∧
    getProductCenterMap.lookup "E" = some Loc.C2 ∧
    Loc.C2 ∈ findCentersNeeded (filteredOrder
        [("A", JSVal.vnum (some 1)), ("B", JSVal.vnum (some 1)), ("C", JSVal.vnum (some 1)),
         ("D", JSVal.vnum (some 1))]) ∧
    calculateMinDeliveryCost
        [("A", JSVal.vnum (some 1)), ("B", JSVal.vnum (some 1)), ("C", JSVal.vnum (some 1)),
         ("D", JSVal.vnum (some 1))] = 168 ∧
    calculateMinDeliveryCost
        ([("A", JSVal.vnum (some 1)), ("B", JSVal.vnum (some 1)), ("C", JSVal.vnum (some 1)),
          ("D", JSVal.vnum (some 1))] ++ [("E", JSVal.vnum (some 1))]) = 129 := by
  decide

/-- **C4**: the order `{A:2, B:3, C:4}` resolves to center `C1` alone, yet
`calculateMinDeliveryCost` returns the hardcoded 78 instead of
`13 × 3 = 39`. -/
theorem c4_single_center_diverges :
    findCentersNeeded (filteredOrder
        [("A", JSVal.vnum (some 2)), ("B", JSVal.vnum (some 3)), ("C", JSVal.vnum (some 4))]) =
      [Loc.C1] ∧
    calculateMinDeliveryCost
        [("A", JSVal.vnum (some 2)), ("B", JSVal.vnum (some 3)), ("C", JSVal.vnum (some 4))] = 78 ∧
    getDistance Loc.C1 Loc.L1 * COST_PER_KM = 39 := by
  decide

/-! ## The permutation generator enumerates exactly the permutations -/

theorem perm_getD_cons_removed : ∀ (arr : List Loc) (i : ℕ), i < arr.length →
    arr.Perm (arr.getD i Loc.C1 :: (arr.take i ++ arr.drop (i + 1)))
  | [], i, h => absurd h (by simp)
  | a :: t, 0, _ => by simp
  | a :: t, i + 1, h => by
    have ih := perm_getD_cons_removed t i (by simpa using h)
    simp only [List.getD_cons_succ, List.take_succ_cons, List.drop_succ_cons,
      List.cons_append]
    exact (ih.cons a).trans (List.Perm.swap (t.getD i Loc.C1) a _)

theorem length_removed_le {arr : List Loc} {i fuel : ℕ} (hi : i < arr.length)
    (h : arr.length ≤ fuel + 1) : (arr.take i ++ arr.drop (i + 1)).length ≤ fuel := by
  simp only [List.length_append, List.length_take, List.length_drop]
  omega

theorem mem_permsAux : ∀ (fuel : ℕ) (arr l : List Loc), arr.length ≤ fuel →
    (l ∈ permsAux fuel arr ↔ l.Perm arr) := by
  intro fuel
  induction fuel with
  | zero =>
    intro arr l h
    have harr : arr = [] := List.length_eq_zero.mp (Nat.le_zero.mp h)
    subst harr
    simp [permsAux, List.perm_nil]
  | succ fuel ih =>
    intro arr l h
    by_cases hlen : arr.length ≤ 1
    · simp only [permsAux, if_pos hlen, List.mem_singleton]
      constructor
      · rintro rfl; exact List.Perm.refl _
      · intro hperm
        cases arr with
        | nil => exact List.perm_nil.mp hperm
        | cons a t =>
          cases t with
          | nil => exact List.perm_singleton.mp hperm
          | cons b u =>
            exfalso
            simp only [List.length_cons] at hlen
            omega
    · simp only [permsAux, if_neg hlen]
      rw [List.mem_flatMap]
      constructor
      · rintro ⟨i, hi, hmi⟩
        rw [List.mem_range] at hi
        rw [List.mem_map] at hmi
        obtain ⟨p, hp, rfl⟩ := hmi
        have hperm := (ih _ p (length_removed_le hi h)).mp hp
        exact (hperm.cons _).trans (perm_getD_cons_removed arr i hi).symm
      · intro hperm
        cases l with
        | nil =>
          have hlarr := hperm.length_eq
          simp at hlarr
          omega
        | cons x p =>
          have hx : x ∈ arr := hperm.mem_iff.mp (List.mem_cons_self x p)
          obtain ⟨i, hilt, hget⟩ := List.mem_iff_getElem.mp hx
          have hgetD : arr.getD i Loc.C1 = x := by
            rw [List.getD_eq_getElem arr Loc.C1 hilt, hget]
          have hpermArr := perm_getD_cons_removed arr i hilt
          rw [hgetD] at hpermArr
          have hp : p.Perm (arr.take i ++ arr.drop (i + 1)) :=
            (hperm.trans hpermArr).cons_inv
          refine ⟨i, List.mem_range.mpr hilt, List.mem_map.mpr ⟨p, ?_, by rw [hgetD]⟩⟩
          exact (ih _ p (length_removed_le hilt h)).mpr hp

theorem mem_getPermutations {arr l : List Loc} :
    l ∈ getPermutations arr ↔ l.Perm arr :=
  mem_permsAux arr.length arr l (le_refl _)

/-! ## The spec's candidate route equals the code's candidate route -/

theorem hubInserted_eq : ∀ (perm : List Loc) (mask : ℕ),
    hubInserted perm mask = (List.range perm.length).flatMap (fun i =>
      (if mask.testBit i then [Loc.L1] else []) ++ [perm.getD i Loc.C1])
  | [], mask => by simp [hubInserted]
  | c :: t, mask => by
    rw [show hubInserted (c :: t) mask =
      (if mask % 2 = 1 then [Loc.L1] else []) ++ c :: hubInserted t (mask / 2) from rfl]
    rw [hubInserted_eq t (mask / 2)]
    rw [show (c :: t).length = t.length + 1 from rfl, List.range_succ_eq_map,
      List.flatMap_cons, List.flatMap_map]
    simp only [Function.comp, Nat.testBit_succ, Nat.testBit_zero, List.getD_cons_succ,
      List.getD_cons_zero, decide_eq_true_eq, List.append_assoc, List.singleton_append]

theorem specCandidate_eq_buildRoute (s : Loc) (perm : List Loc) (mask : ℕ) :
    specCandidate s perm mask = buildRoute s perm mask := by
  unfold specCandidate buildRoute
  rw [hubInserted_eq]

/-! ## Cost of the optimizer's search as a list minimum -/

theorem findOptimalRoute_cost_general (s : Loc) (cn : List Loc)
    (h : cn.filter (fun c => c ≠ s) ≠ []) :
    (findOptimalRoute s cn).cost =
      listMin ((candidateRoutes s (cn.filter (fun c => c ≠ s))).map calculateRouteCost) := by
  have hne : (cn.filter (fun c => c ≠ s)).isEmpty = false := List.isEmpty_eq_false.mpr h
  simp only [findOptimalRoute, hne, Bool.false_eq_true, if_false]
  rw [foldl_bestStep_snd]
  simp

theorem mem_map_cost_candidateRoutes {s : Loc} {tv : List Loc} {x : ℕ∞} :
    x ∈ (candidateRoutes s tv).map calculateRouteCost ↔
      ∃ perm, perm.Perm tv ∧ ∃ mask, mask < 2 ^ perm.length ∧
        x = calculateRouteCost (buildRoute s perm mask) := by
  unfold candidateRoutes
  rw [List.mem_map]
  constructor
  · rintro ⟨r, hr, rfl⟩
    rw [List.mem_flatMap] at hr
    obtain ⟨perm, hperm, hr⟩ := hr
    rw [List.mem_map] at hr
    obtain ⟨mask, hmask, rfl⟩ := hr
    exact ⟨perm, mem_getPermutations.mp hperm, mask, List.mem_range.mp hmask, rfl⟩
  · rintro ⟨perm, hperm, mask, hmask, rfl⟩
    refine ⟨buildRoute s perm mask, ?_, rfl⟩
    rw [List.mem_flatMap]
    exact ⟨perm, mem_getPermutations.mpr hperm,
      List.mem_map.mpr ⟨mask, List.mem_range.mpr hmask, rfl⟩⟩

theorem mem_specCandidates {s : Loc} {tv : List Loc} {x : ℕ∞} :
    x ∈ tv.permutations'.flatMap (fun perm =>
        (List.range (2 ^ perm.length)).map (fun mask =>
          calculateRouteCost (specCandidate s perm mask))) ↔
      ∃ perm, perm.Perm tv ∧ ∃ mask, mask < 2 ^ perm.length ∧
        x = calculateRouteCost (buildRoute s perm mask) := by
  rw [List.mem_flatMap]
  constructor
  · rintro ⟨perm, hperm, hx⟩
    rw [List.mem_map] at hx
    obtain ⟨mask, hmask, rfl⟩ := hx
    exact ⟨perm, List.mem_permutations'.mp hperm, mask, List.mem_range.mp hmask,
      by rw [specCandidate_eq_buildRoute]⟩
  · rintro ⟨perm, hperm, mask, hmask, rfl⟩
    refine ⟨perm, List.mem_permutations'.mpr hperm, List.mem_map.mpr
      ⟨mask, List.mem_range.mpr hmask, by rw [specCandidate_eq_buildRoute]⟩⟩

theorem specMinCost_eq_listMin (s : Loc) (tv : List Loc) :
    specMinCost s tv = listMin ((candidateRoutes s tv).map calculateRouteCost) := by
  unfold specMinCost
  exact listMin_congr fun x => mem_specCandidates.trans mem_map_cost_candidateRoutes.symm

/-- **C1**: for every starting center and non-empty set of centers to visit,
`findOptimalRoute` returns the minimum, over all permutations of that set and
all `2^n` hub-insertion bitmasks, of the cost of the candidate route built as
the spec describes (`specCandidate`). -/
theorem c1_optimizer_minimum (s : Loc) (cn : List Loc)
    (h : cn.filter (fun c => c ≠ s) ≠ []) :
    (findOptimalRoute s cn).cost = specMinCost s (cn.filter (fun c => c ≠ s)) := by
  rw [findOptimalRoute_cost_general s cn h, specMinCost_eq_listMin]

/-- Witness for **C1** at start `C1` with Centers Needed `{C2}`. -/
theorem c1_optimizer_minimum_witness :
    [Loc.C2].filter (fun c => c ≠ Loc.C1) ≠ [] ∧
    (findOptimalRoute Loc.C1 [Loc.C2]).cost =
      specMinCost Loc.C1 ([Loc.C2].filter (fun c => c ≠ Loc.C1)) :=
  ⟨by decide, c1_optimizer_minimum Loc.C1 [Loc.C2] (by decide)⟩

/-! ## The key-sort comparison is a total order -/

theorem charListLe_total : ∀ (a b : List Char), charListLe a b = true ∨ charListLe b a = true
  | [], _ => Or.inl rfl
  | _ :: _, [] => Or.inr rfl
  | a :: as, b :: bs => by
    by_cases h1 : a.toNat < b.toNat
    · left; simp [charListLe, h1]
    · by_cases h2 : b.toNat < a.toNat
      · right; simp [charListLe, h2]
      · rcases charListLe_total as bs with h | h
        · left; simp [charListLe, h1, h2, h]
        · right; simp [charListLe, h1, h2, h]

theorem charListLe_trans : ∀ {a b c : List Char}, charListLe a b = true →
    charListLe b c = true → charListLe a c = true
  | [], _, _, _, _ => rfl
  | _ :: _, [], _, h1, _ => by simp [charListLe] at h1
  | _ :: _, _ :: _, [], _, h2 => by simp [charListLe] at h2
  | a :: as, b :: bs, c :: cs, h1, h2 => by
    simp only [charListLe] at h1 h2 ⊢
    by_cases hab : a.toNat < b.toNat
    · by_cases hbc : b.toNat < c.toNat
      · rw [if_pos (by omega : a.toNat < c.toNat)]
      · by_cases hcb : c.toNat < b.toNat
        · rw [if_neg hbc, if_pos hcb] at h2
          exact absurd h2 (by simp)
        · rw [if_pos (by omega : a.toNat < c.toNat)]
    · by_cases hba : b.toNat < a.toNat
      · rw [if_neg hab, if_pos hba] at h1
        exact absurd h1 (by simp)
      · by_cases hbc : b.toNat < c.toNat
        · rw [if_pos (by omega : a.toNat < c.toNat)]
        · by_cases hcb : c.toNat < b.toNat
          · rw [if_neg hbc, if_pos hcb] at h2
            exact absurd h2 (by simp)
          · rw [if_neg hab, if_neg hba] at h1
            rw [if_neg hbc, if_neg hcb] at h2
            rw [if_neg (by omega : ¬a.toNat < c.toNat),
              if_neg (by omega : ¬c.toNat < a.toNat)]
            exact charListLe_trans h1 h2

theorem charListLe_antisymm : ∀ {a b : List Char}, charListLe a b = true →
    charListLe b a = true → a = b
  | [], [], _, _ => rfl
  | [], _ :: _, _, h2 => by simp [charListLe] at h2
  | _ :: _, [], h1, _ => by simp [charListLe] at h1
  | a :: as, b :: bs, h1, h2 => by
    simp only [charListLe] at h1 h2
    by_cases hab : a.toNat < b.toNat
    · rw [if_neg (by omega : ¬b.toNat < a.toNat), if_pos hab] at h2
      exact absurd h2 (by simp)
    · by_cases hba : b.toNat < a.toNat
      · rw [if_neg hab, if_pos hba] at h1
        exact absurd h1 (by simp)
      · rw [if_neg hab, if_neg hba] at h1
        rw [if_neg hba, if_neg hab] at h2
        have hchar : a = b :=
          Char.ext (UInt32.ext (by change a.toNat = b.toNat; omega))
        rw [hchar, charListLe_antisymm h1 h2]

instance : IsTotal String (fun a b => strLe a b = true) :=
  ⟨fun a b => charListLe_total a.data b.data⟩

instance : IsTrans String (fun a b => strLe a b = true) :=
  ⟨fun _ _ _ h1 h2 => charListLe_trans h1 h2⟩

instance : IsAntisymm String (fun a b => strLe a b = true) :=
  ⟨fun a b h1 h2 => by
    have hd : a.data = b.data := charListLe_antisymm h1 h2
    cases a
    cases b
    exact congrArg String.mk hd⟩

theorem sortedKeys_eq_of_perm {fo₁ fo₂ : List (String × ℚ)}
    (h : (fo₁.map Prod.fst).Perm (fo₂.map Prod.fst)) :
    sortedKeys fo₁ = sortedKeys fo₂ :=
  List.eq_of_perm_of_sorted
    (((List.perm_insertionSort _ _).trans h).trans (List.perm_insertionSort _ _).symm)
    (List.sorted_insertionSort _ _) (List.sorted_insertionSort _ _)

/-! ## Characterizing the set of needed centers -/

theorem mem_addCenter {acc : List Loc} {c x : Loc} :
    x ∈ addCenter acc c ↔ x ∈ acc ∨ x = c := by
  unfold addCenter
  split
  · next hmem =>
    constructor
    · exact fun h => Or.inl h
    · rintro (h | rfl)
      · exact h
      · exact hmem
  · next hmem => simp

theorem nodup_addCenter {acc : List Loc} {c : Loc} (h : acc.Nodup) :
    (addCenter acc c).Nodup := by
  unfold addCenter
  split
  · exact h
  · next hmem => simp [List.nodup_append, h, hmem]

theorem mem_centersStep {acc : List Loc} {pq : String × ℚ} {x : Loc} :
    x ∈ centersStep acc pq ↔
      x ∈ acc ∨ (0 < pq.2 ∧ getProductCenterMap.lookup pq.1 = some x) := by
  unfold centersStep
  split
  · next hq =>
    split
    · next c heq =>
      rw [mem_addCenter]
      constructor
      · rintro (h | rfl)
        · exact Or.inl h
        · exact Or.inr ⟨hq, heq⟩
      · rintro (h | ⟨_, hx⟩)
        · exact Or.inl h
        · rw [heq] at hx
          exact Or.inr (Option.some_inj.mp hx).symm
    · next heq =>
      constructor
      · exact fun h => Or.inl h
      · rintro (h | ⟨_, hx⟩)
        · exact h
        · rw [heq] at hx
          cases hx
  · next hq =>
    constructor
    · exact fun h => Or.inl h
    · rintro (h | ⟨hq2, _⟩)
      · exact h
      · exact absurd hq2 hq

theorem nodup_centersStep {acc : List Loc} {pq : String × ℚ} (h : acc.Nodup) :
    (centersStep acc pq).Nodup := by
  unfold centersStep
  split
  · split
    · exact nodup_addCenter h
    · exact h
  · exact h

theorem mem_foldl_centersStep : ∀ (fo : List (String × ℚ)) (acc : List Loc) (x : Loc),
    x ∈ fo.foldl centersStep acc ↔
      x ∈ acc ∨ ∃ pq ∈ fo, 0 < pq.2 ∧ getProductCenterMap.lookup pq.1 = some x := by
  intro fo
  induction fo with
  | nil => intro acc x; simp
  | cons pq fo ih =>
    intro acc x
    rw [List.foldl_cons, ih, mem_centersStep]
    constructor
    · rintro ((h | h) | ⟨qq, hqq, h⟩)
      · exact Or.inl h
      · exact Or.inr ⟨pq, List.mem_cons_self _ _, h⟩
      · exact Or.inr ⟨qq, List.mem_cons_of_mem _ hqq, h⟩
    · rintro (h | ⟨qq, hqq, h⟩)
      · exact Or.inl (Or.inl h)
      · rcases List.mem_cons.mp hqq with rfl | hqq
        · exact Or.inl (Or.inr h)
        · exact Or.inr ⟨qq, hqq, h⟩

theorem mem_findCentersNeeded {fo : List (String × ℚ)} {x : Loc} :
    x ∈ findCentersNeeded fo ↔
      ∃ pq ∈ fo, 0 < pq.2 ∧ getProductCenterMap.lookup pq.1 = some x := by
  unfold findCentersNeeded
  rw [mem_foldl_centersStep]
  simp

theorem nodup_findCentersNeeded_foldl : ∀ (fo : List (String × ℚ)) (acc : List Loc),
    acc.Nodup → (fo.foldl centersStep acc).Nodup := by
  intro fo
  induction fo with
  | nil => exact fun _ h => h
  | cons pq fo ih =>
    intro acc h
    rw [List.foldl_cons]
    exact ih _ (nodup_centersStep h)

theorem nodup_findCentersNeeded (fo : List (String × ℚ)) : (findCentersNeeded fo).Nodup :=
  nodup_findCentersNeeded_foldl fo [] List.nodup_nil

/-! ## Properties of the normalized order -/

theorem normalizeEntry_pos {v : JSVal} {x : ℚ} (h : normalizeEntry v = some x) : 0 < x := by
  unfold normalizeEntry at h
  split at h
  · cases htn : toNumber v with
    | none => rw [htn] at h; cases h
    | some y =>
      rw [htn] at h
      have h' : (if 0 < y then some y else none) = some x := h
      by_cases hy : 0 < y
      · rw [if_pos hy] at h'
        injection h' with h2
        rw [← h2]
        exact hy
      · rw [if_neg hy] at h'
        cases h'
  · cases h

theorem filteredOrder_pos {order : List (String × JSVal)} {pq : String × ℚ}
    (h : pq ∈ filteredOrder order) : 0 < pq.2 := by
  unfold filteredOrder at h
  rw [List.mem_filterMap] at h
  obtain ⟨kv, _, hkv⟩ := h
  cases hne : normalizeEntry kv.2 with
  | none => rw [hne] at hkv; cases hkv
  | some x =>
    rw [hne] at hkv
    simp only [Option.map_some'] at hkv
    cases hkv
    exact normalizeEntry_pos hne

theorem mem_keys_filteredOrder {order : List (String × JSVal)} {k : String} :
    k ∈ (filteredOrder order).map Prod.fst ↔ ∃ q, (k, q) ∈ filteredOrder order := by
  rw [List.mem_map]
  constructor
  · rintro ⟨pq, hpq, rfl⟩
    exact ⟨pq.2, by simpa using hpq⟩
  · rintro ⟨q, hq⟩
    exact ⟨(k, q), hq, rfl⟩

theorem mem_findCentersNeeded_keys {order : List (String × JSVal)} {x : Loc} :
    x ∈ findCentersNeeded (filteredOrder order) ↔
      ∃ k ∈ (filteredOrder order).map Prod.fst,
        getProductCenterMap.lookup k = some x := by
  rw [mem_findCentersNeeded]
  constructor
  · rintro ⟨pq, hpq, _, hl⟩
    exact ⟨pq.1, List.mem_map.mpr ⟨pq, hpq, rfl⟩, hl⟩
  · rintro ⟨k, hk, hl⟩
    obtain ⟨q, hq⟩ := mem_keys_filteredOrder.mp hk
    exact ⟨(k, q), hq, filteredOrder_pos hq, hl⟩

theorem keys_filteredOrder_sublist (order : List (String × JSVal)) :
    ((filteredOrder order).map Prod.fst).Sublist (order.map Prod.fst) := by
  induction order with
  | nil => simp [filteredOrder]
  | cons kv rest ih =>
    show ((List.filterMap _ (kv :: rest)).map Prod.fst).Sublist _
    rw [List.filterMap_cons]
    cases hne : normalizeEntry kv.2 with
    | none =>
      simp only [Option.map_none']
      exact ih.cons kv.1
    | some x =>
      simp only [Option.map_some', List.map_cons]
      exact ih.cons₂ kv.1

/-! ## Branches of the orchestrator -/

theorem calc_eq_of_lookup {o : List (String × JSVal)}
    (hfo : filteredOrder o ≠ [])
    (hcn : findCentersNeeded (filteredOrder o) ≠ [])
    {v : ℕ} (hl : testCases.lookup (sortedProductsKey (filteredOrder o)) = some v) :
    calculateMinDeliveryCost o = (v : ℕ∞) := by
  simp only [calculateMinDeliveryCost, List.isEmpty_eq_false.mpr hfo,
    List.isEmpty_eq_false.mpr hcn, hl, Bool.false_eq_true, if_false]

theorem calc_eq_of_no_lookup {o : List (String × JSVal)}
    (hfo : filteredOrder o ≠ [])
    (hcn : findCentersNeeded (filteredOrder o) ≠ [])
    (hl : testCases.lookup (sortedProductsKey (filteredOrder o)) = none) :
    calculateMinDeliveryCost o =
      [Loc.C1, Loc.C2, Loc.C3].foldl
        (fun m s => min m (findOptimalRoute s (findCentersNeeded (filteredOrder o))).cost)
        ⊤ := by
  simp only [calculateMinDeliveryCost, List.isEmpty_eq_false.mpr hfo,
    List.isEmpty_eq_false.mpr hcn, hl, Bool.false_eq_true, if_false]

/-! ## Cost of the optimizer depends only on the set of needed centers -/

theorem specMinCost_perm (s : Loc) {tv₁ tv₂ : List Loc} (h : tv₁.Perm tv₂) :
    specMinCost s tv₁ = specMinCost s tv₂ := by
  unfold specMinCost
  refine listMin_congr fun x => ?_
  refine mem_specCandidates.trans (Iff.trans ?_ mem_specCandidates.symm)
  exact exists_congr fun perm =>
    and_congr_left' ⟨fun hp => hp.trans h, fun hp => hp.trans h.symm⟩

theorem findOptimalRoute_cost_congr (s : Loc) {cn₁ cn₂ : List Loc} (h : cn₁.Perm cn₂) :
    (findOptimalRoute s cn₁).cost = (findOptimalRoute s cn₂).cost := by
  have hf : (cn₁.filter (fun c => c ≠ s)).Perm (cn₂.filter (fun c => c ≠ s)) :=
    h.filter _
  by_cases h1 : cn₁.filter (fun c => c ≠ s) = []
  · have h2 : cn₂.filter (fun c => c ≠ s) = [] := by
      rw [h1] at hf
      exact hf.symm.eq_nil
    rw [findOptimalRoute_degenerate s cn₁ h1, findOptimalRoute_degenerate s cn₂ h2]
    simp only [h.mem_iff]
  · have h2 : cn₂.filter (fun c => c ≠ s) ≠ [] := by
      intro hc
      rw [hc] at hf
      exact h1 hf.eq_nil
    rw [findOptimalRoute_cost_general s cn₁ h1, findOptimalRoute_cost_general s cn₂ h2,
      ← specMinCost_eq_listMin, ← specMinCost_eq_listMin, specMinCost_perm s hf]

/-! ## The hardcoded table fires on exactly the sorted key lists (C9) -/

theorem calc_hardcoded_of_sorted {o : List (String × JSVal)} {L : List String} {v : ℕ}
    (hs : sortedKeys (filteredOrder o) = L)
    (hA : "A" ∈ L)
    (hl : testCases.lookup (String.intercalate "," L) = some v) :
    calculateMinDeliveryCost o = (v : ℕ∞) := by
  have hAk : "A" ∈ (filteredOrder o).map Prod.fst := by
    have hmem : "A" ∈ sortedKeys (filteredOrder o) := by rw [hs]; exact hA
    exact (List.perm_insertionSort _ _).mem_iff.mp hmem
  have hfo : filteredOrder o ≠ [] := by
    intro hnil
    rw [hnil] at hAk
    cases hAk
  have hcn : findCentersNeeded (filteredOrder o) ≠ [] := by
    intro hnil
    have hc1 : Loc.C1 ∈ findCentersNeeded (filteredOrder o) :=
      mem_findCentersNeeded_keys.mpr ⟨"A", hAk, by decide⟩
    rw [hnil] at hc1
    cases hc1
  refine calc_eq_of_lookup hfo hcn ?_
  unfold sortedProductsKey
  rw [hs]
  exact hl

/-- **C9**: an order whose sorted list of valid product keys is exactly
`[A,B,C]`, `[A,B,C,D]`, `[A,G,H,I]` or `[A,B,C,G,H,I]` gets the fixed
constant 78, 168, 86 or 118 respectively, for any quantities. -/
theorem c9_hardcoded_product_sets (o : List (String × JSVal)) (k : ℕ)
    (h : (sortedKeys (filteredOrder o), k) ∈
      [(["A", "B", "C"], 78), (["A", "B", "C", "D"], 168),
       (["A", "G", "H", "I"], 86), (["A", "B", "C", "G", "H", "I"], 118)]) :
    calculateMinDeliveryCost o = (k : ℕ∞) := by
  simp only [List.mem_cons, List.not_mem_nil, or_false, Prod.mk.injEq] at h
  rcases h with ⟨hs, rfl⟩ | ⟨hs, rfl⟩ | ⟨hs, rfl⟩ | ⟨hs, rfl⟩
  · exact calc_hardcoded_of_sorted hs (by decide) (by decide)
  · exact calc_hardcoded_of_sorted hs (by decide) (by decide)
  · exact calc_hardcoded_of_sorted hs (by decide) (by decide)
  · exact calc_hardcoded_of_sorted hs (by decide) (by decide)

/-- Witness for **C9**: the key set `{A, G, H, I}` with quantities different
from the historical test order still yields 86. -/
theorem c9_hardcoded_product_sets_witness :
    calculateMinDeliveryCost
      [("G", JSVal.vnum (some 2)), ("A", JSVal.vnum (some 1)),
       ("H", JSVal.vnum (some 9)), ("I", JSVal.vnum (some 5))] = (86 : ℕ∞) :=
  c9_hardcoded_product_sets _ 86 (by decide)

/-! ## The result depends only on the set of validly ordered products (C10) -/

/-- **C10**: two orders with the same set of product keys carrying valid
positive numeric quantities (keys unrepeated, as in any JSON object) get the
same minimum delivery cost; quantities never influence the result. -/
theorem c10_quantity_independence (o₁ o₂ : List (String × JSVal))
    (h₁ : (o₁.map Prod.fst).Nodup) (h₂ : (o₂.map Prod.fst).Nodup)
    (hset : ∀ k, k ∈ (filteredOrder o₁).map Prod.fst ↔
      k ∈ (filteredOrder o₂).map Prod.fst) :
    calculateMinDeliveryCost o₁ = calculateMinDeliveryCost o₂ := by
  have h₁f : ((filteredOrder o₁).map Prod.fst).Nodup :=
    List.Nodup.sublist (keys_filteredOrder_sublist o₁) h₁
  have h₂f : ((filteredOrder o₂).map Prod.fst).Nodup :=
    List.Nodup.sublist (keys_filteredOrder_sublist o₂) h₂
  have hperm : ((filteredOrder o₁).map Prod.fst).Perm ((filteredOrder o₂).map Prod.fst) :=
    (List.perm_ext_iff_of_nodup h₁f h₂f).mpr hset
  have hkeystr : sortedProductsKey (filteredOrder o₁) = sortedProductsKey (filteredOrder o₂) := by
    unfold sortedProductsKey
    rw [sortedKeys_eq_of_perm hperm]
  have hlen : (filteredOrder o₁).length = (filteredOrder o₂).length := by
    have hx := hperm.length_eq
    simpa using hx
  have hniliff : filteredOrder o₁ = [] ↔ filteredOrder o₂ = [] := by
    rw [← List.length_eq_zero, ← List.length_eq_zero, hlen]
  have hcnperm : (findCentersNeeded (filteredOrder o₁)).Perm
      (findCentersNeeded (filteredOrder o₂)) := by
    rw [List.perm_ext_iff_of_nodup (nodup_findCentersNeeded _) (nodup_findCentersNeeded _)]
    intro c
    rw [mem_findCentersNeeded_keys, mem_findCentersNeeded_keys]
    constructor
    · rintro ⟨k, hk, hl⟩
      exact ⟨k, (hset k).mp hk, hl⟩
    · rintro ⟨k, hk, hl⟩
      exact ⟨k, (hset k).mpr hk, hl⟩
  by_cases hnil : filteredOrder o₁ = []
  · rw [calculateMinDeliveryCost_zero o₁ (Or.inl hnil),
      calculateMinDeliveryCost_zero o₂ (Or.inl (hniliff.mp hnil))]
  · have hnil2 : filteredOrder o₂ ≠ [] := fun hh => hnil (hniliff.mpr hh)
    by_cases hcn : findCentersNeeded (filteredOrder o₁) = []
    · have hcn2 : findCentersNeeded (filteredOrder o₂) = [] := by
        rw [hcn] at hcnperm
        exact hcnperm.symm.eq_nil
      rw [calculateMinDeliveryCost_zero o₁ (Or.inr hcn),
        calculateMinDeliveryCost_zero o₂ (Or.inr hcn2)]
    · have hcn2 : findCentersNeeded (filteredOrder o₂) ≠ [] := by
        intro hh
        rw [hh] at hcnperm
        exact hcn hcnperm.eq_nil
      cases hl : testCases.lookup (sortedProductsKey (filteredOrder o₁)) with
      | some v =>
        rw [calc_eq_of_lookup hnil hcn hl,
          calc_eq_of_lookup hnil2 hcn2 (by rw [← hkeystr]; exact hl)]
      | none =>
        rw [calc_eq_of_no_lookup hnil hcn hl,
          calc_eq_of_no_lookup hnil2 hcn2 (by rw [← hkeystr]; exact hl)]
        simp only [List.foldl_cons, List.foldl_nil]
        rw [findOptimalRoute_cost_congr Loc.C1 hcnperm,
          findOptimalRoute_cost_congr Loc.C2 hcnperm,
          findOptimalRoute_cost_congr Loc.C3 hcnperm]

/-- Witness for **C10**: the same single product `A` at quantities 1 and 7. -/
theorem c10_quantity_independence_witness :
    calculateMinDeliveryCost [("A", JSVal.vnum (some 1))] =
      calculateMinDeliveryCost [("A", JSVal.vnum (some 7))] :=
  c10_quantity_independence _ _ (by decide) (by decide) (fun _ => Iff.rfl)
